import Mathlib

set_option maxRecDepth 10000

namespace Moss

/-! Shallow embedding of the knowledge-retrieval core of the Moss-chat-web
repository: the ranking-reply parser and fallback of CopilotService
(copilot-service.ts), the lexical scorer, snippet extractor and the two
search pipelines of KnowledgeService (knowledge-service.ts), and the path
handling of loadDocument.  JavaScript strings are modelled as Lean
String / List Char; the JavaScript numbers arising in this code are
non-negative integers and are modelled as Nat.  The external Copilot
session is modelled as an abstract oracle value: Except Unit (Option String)
stands for the outcome of the awaited SDK call (error = any thrown
exception, ok none = a reply without content, ok (some s) = reply text s). -/

/-- Values of the maximal digit runs of a string: the model of the
JavaScript content.match(/\d+/g) followed by parseInt(_, 10) in
CopilotService.parseRanking.  The accumulator carries the value of the
digit run currently being read. -/
def digitRunsAux : List Char → Option Nat → List Nat
  | [], none => []
  | [], some v => [v]
  | c :: cs, none =>
    if c.isDigit then digitRunsAux cs (some (c.toNat - 48)) else digitRunsAux cs none
  | c :: cs, some v =>
    if c.isDigit then digitRunsAux cs (some (v * 10 + (c.toNat - 48)))
    else v :: digitRunsAux cs none

/-- Deduplication keeping the first occurrence of each value, the model of
Array.from(new Set(numbers)) (a JavaScript Set iterates in insertion
order). -/
def dedupFirstAux (seen : List Nat) : List Nat → List Nat
  | [] => []
  | x :: xs => if x ∈ seen then dedupFirstAux seen xs else x :: dedupFirstAux (x :: seen) xs

/-- CopilotService.parseRanking: extract every maximal digit run of the
reply, keep the values in the range of valid document indices, deduplicate
keeping first occurrences, then append the missing indices in ascending
order. -/
def parseRanking (content : String) (documentCount : Nat) : List Nat :=
  let numbers := (digitRunsAux content.data none).filter
    (fun n => decide (0 ≤ n) && decide (n < documentCount))
  let uniqueNumbers := dedupFirstAux [] numbers
  let missingIndices := (List.range documentCount).filter
    (fun i => decide (i ∉ uniqueNumbers))
  uniqueNumbers ++ missingIndices

/-- CopilotService.rankDocumentsByRelevance, with the Copilot session
abstracted into its outcome.  Every thrown exception (client unavailable,
failed initialization, transport failure, timeout) is the error case and is
absorbed by the catch clause of the source; a reply without content hits
the final fallback return.  Both produce the identity permutation. -/
def rankDocumentsByRelevance (oracleReply : Except Unit (Option String))
    (documents : List (String × String)) : List Nat :=
  match oracleReply with
  | Except.error _ => List.range documents.length
  | Except.ok none => List.range documents.length
  | Except.ok (some content) => parseRanking content documents.length

lemma mem_dedupFirstAux : ∀ (l seen : List Nat) (x : Nat),
    x ∈ dedupFirstAux seen l ↔ x ∈ l ∧ x ∉ seen := by
  intro l
  induction l with
  | nil => intro seen x; simp [dedupFirstAux]
  | cons a as ih =>
    intro seen x
    constructor
    · intro hx
      by_cases ha : a ∈ seen
      · rw [dedupFirstAux, if_pos ha] at hx
        rcases (ih seen x).mp hx with ⟨h1, h2⟩
        exact ⟨List.mem_cons_of_mem _ h1, h2⟩
      · rw [dedupFirstAux, if_neg ha] at hx
        rcases List.mem_cons.mp hx with rfl | hx
        · exact ⟨List.mem_cons_self _ _, ha⟩
        · rcases (ih (a :: seen) x).mp hx with ⟨h1, h2⟩
          exact ⟨List.mem_cons_of_mem _ h1, fun hs => h2 (List.mem_cons_of_mem _ hs)⟩
    · rintro ⟨h1, h2⟩
      by_cases ha : a ∈ seen
      · rw [dedupFirstAux, if_pos ha]
        rcases List.mem_cons.mp h1 with rfl | h1
        · exact absurd ha h2
        · exact (ih seen x).mpr ⟨h1, h2⟩
      · rw [dedupFirstAux, if_neg ha]
        by_cases hxa : x = a
        · subst hxa; exact List.mem_cons_self _ _
        · rcases List.mem_cons.mp h1 with rfl | h1
          · exact absurd rfl hxa
          · refine List.mem_cons_of_mem _ ((ih (a :: seen) x).mpr ⟨h1, ?_⟩)
            intro hs
            rcases List.mem_cons.mp hs with h | h
            · exact hxa h
            · exact h2 h

lemma nodup_dedupFirstAux : ∀ (l seen : List Nat), (dedupFirstAux seen l).Nodup := by
  intro l
  induction l with
  | nil => intro seen; simp [dedupFirstAux]
  | cons a as ih =>
    intro seen
    by_cases ha : a ∈ seen
    · simpa [dedupFirstAux, if_pos ha] using ih seen
    · simp only [dedupFirstAux, if_neg ha]
      refine List.nodup_cons.mpr ⟨fun hmem => ?_, ih (a :: seen)⟩
      exact ((mem_dedupFirstAux as (a :: seen) a).mp hmem).2 (List.mem_cons_self a seen)

/-- The parsed ranking is a permutation of the index range, for every reply
text and every document count. -/
lemma parseRanking_perm (content : String) (N : Nat) :
    (parseRanking content N).Perm (List.range N) := by
  unfold parseRanking
  set numbers := (digitRunsAux content.data none).filter
    (fun n => decide (0 ≤ n) && decide (n < N)) with hnum
  set uniq := dedupFirstAux [] numbers with huniq
  set missing := (List.range N).filter (fun i => decide (i ∉ uniq)) with hmis
  have huniq_lt : ∀ x ∈ uniq, x < N := by
    intro x hx
    have hxn : x ∈ numbers := ((mem_dedupFirstAux numbers [] x).mp hx).1
    have := (List.mem_filter.mp hxn).2
    simp only [Bool.and_eq_true, decide_eq_true_eq] at this
    exact this.2
  have hnodup : (uniq ++ missing).Nodup := by
    refine List.Nodup.append (nodup_dedupFirstAux numbers []) ?_ ?_
    · exact (List.nodup_range N).filter _
    · intro x hx hxm
      have := (List.mem_filter.mp hxm).2
      simp only [decide_eq_true_eq] at this
      exact this hx
  have hsub : (uniq ++ missing) ⊆ List.range N := by
    intro x hx
    rcases List.mem_append.mp hx with hx | hx
    · exact List.mem_range.mpr (huniq_lt x hx)
    · exact (List.mem_filter.mp hx).1
  have hsup : List.range N ⊆ (uniq ++ missing) := by
    intro x hx
    by_cases hxu : x ∈ uniq
    · exact List.mem_append.mpr (Or.inl hxu)
    · refine List.mem_append.mpr (Or.inr ?_)
      exact List.mem_filter.mpr ⟨hx, by simpa using hxu⟩
  exact (hnodup.subperm hsub).antisymm ((List.nodup_range N).subperm hsup)

/-- C1: for every document count N and every reply string, parseRanking
returns the maximal digit-run integers of the reply lying in [0, N),
deduplicated keeping first occurrences, followed by the missing indices in
ascending order (this is its definition, translated from the source);
consequently the result always has exactly N entries, without duplicates,
containing exactly the indices 0..N-1 - a full permutation, however
malformed the reply text is. -/
theorem c1_parseRanking_full_permutation (content : String) (N : Nat) :
    (parseRanking content N).length = N ∧
    (parseRanking content N).Nodup ∧
    (∀ i : Nat, i ∈ parseRanking content N ↔ i < N) ∧
    (parseRanking content N).Perm (List.range N) := by
  have hp := parseRanking_perm content N
  refine ⟨?_, ?_, ?_, hp⟩
  · simpa using hp.length_eq
  · exact hp.symm.nodup (List.nodup_range N)
  · intro i
    rw [hp.mem_iff, List.mem_range]

/-- C2: whenever the oracle call throws (client unavailable, failed
initialization, transport failure, timeout), or the reply carries no
content, or the candidate list is empty, rankDocumentsByRelevance returns
the identity permutation [0, ..., N-1] (empty for N = 0).  The embedding is
a total function, reflecting that the source catches every exception and
never re-raises to its caller. -/
theorem c2_rank_fallback_identity (oracleReply : Except Unit (Option String))
    (documents : List (String × String))
    (h : oracleReply = Except.error () ∨ oracleReply = Except.ok none ∨ documents = []) :
    rankDocumentsByRelevance oracleReply documents = List.range documents.length := by
  rcases h with h | h | h
  · subst h; rfl
  · subst h; rfl
  · subst h
    match oracleReply with
    | Except.error _ => rfl
    | Except.ok none => rfl
    | Except.ok (some content) =>
      show parseRanking content 0 = List.range 0
      have hperm := parseRanking_perm content 0
      rw [List.range_zero] at hperm ⊢
      exact hperm.eq_nil

/-- Witness for C2 at a concrete failing oracle and one document. -/
theorem c2_rank_fallback_identity_witness :
    rankDocumentsByRelevance (Except.error ()) [("Moss Care", "a snippet")] = [0] := by
  have h := c2_rank_fallback_identity (Except.error ()) [("Moss Care", "a snippet")]
    (Or.inl rfl)
  simpa using h

/-! String utilities shared by the KnowledgeService embedding. -/

/-- Substring test: the model of JavaScript hay.includes(needle). -/
def containsList (needle : List Char) : List Char → Bool
  | [] => needle.isEmpty
  | c :: cs => needle.isPrefixOf (c :: cs) || containsList needle cs

/-- Helper for the global-regex occurrence count: when the pattern matches
at the current position the scan resumes after the match (the second
argument counts characters still to be skipped), so matches never
overlap, exactly as String.prototype.match with the g flag behaves for a
literal pattern.  Only called with nonempty patterns (query terms of
length at least 3). -/
def countGAux (needle : List Char) : List Char → Nat → Nat
  | [], _ => 0
  | _ :: cs, Nat.succ skip => countGAux needle cs skip
  | c :: cs, 0 =>
    if needle.isPrefixOf (c :: cs) then 1 + countGAux needle cs (needle.length - 1)
    else countGAux needle cs 0

/-- Number of left-to-right non-overlapping occurrences of needle: the
value of (hay.match(new RegExp(term, 'g')) ?? []).length on the domain
where the unescaped term contains no ECMA-262 syntax character (see
regexSpecialChar): such a pattern is a sequence of PatternCharacters and
matches exactly the literal term, non-overlapping under the g flag.  The
score theorems restrict the query to this domain by hypothesis
(literalQuery).  Outside it the dynamic regex diverges from literal
matching - see countRegexDL and the C4 counterexample for the '.'
metacharacter - or fails to compile at all (a term like c++ raises
SyntaxError in the RegExp constructor, which the enclosing search catch
turns into an empty result). -/
def countG (needle hay : List Char) : Nat := countGAux needle hay 0

/-- Number of all (possibly overlapping) occurrence positions of needle in
hay.  This is not used by the source; it formalises the words "number of
substring occurrences" of the specification, to be compared with countG. -/
def countOcc (needle : List Char) : List Char → Nat
  | [] => 0
  | c :: cs => (if needle.isPrefixOf (c :: cs) then 1 else 0) + countOcc needle cs

/-- Whitespace split of JavaScript String.prototype.split(/\s+/): the
separators are maximal whitespace runs, and an empty piece is produced at
either end when the string starts or ends with whitespace.  The mode
argument is some cur while a token (reversed in cur) is being read, and
none while a whitespace run is being skipped. -/
def splitWsAux (mode : Option (List Char)) : List Char → List (List Char)
  | [] =>
    match mode with
    | some cur => [cur.reverse]
    | none => [[]]
  | c :: cs =>
    match mode with
    | some cur =>
      if c.isWhitespace then cur.reverse :: splitWsAux none cs
      else splitWsAux (some (c :: cur)) cs
    | none =>
      if c.isWhitespace then splitWsAux none cs
      else splitWsAux (some [c]) cs

/-- The query tokenization query.toLowerCase().split(/\s+/) used by
KnowledgeService.search, searchWithCopilot and scoreDocument's callers.
Char.toLower models String.prototype.toLowerCase (they agree on ASCII). -/
def tokenize (query : String) : List String :=
  (splitWsAux (some []) (query.data.map Char.toLower)).map (fun l => String.mk l)

/-- The KnowledgeDocument interface of knowledge-service.ts.  The snippet
field is optional there and absent on cache entries. -/
structure KDoc where
  path : String
  title : String
  content : String
  snippet : Option String
deriving DecidableEq

/-- A candidate of searchWithCopilot: a document together with its lexical
score (the spread {...doc, snippet, score} of the source). -/
structure Cand where
  doc : KDoc
  score : Nat
deriving DecidableEq

/-- The ECMA-262 SyntaxCharacters: the characters with syntactic meaning
inside a RegExp pattern.  A pattern free of them is a literal sequence of
PatternCharacters. -/
def regexSpecialChar (c : Char) : Bool :=
  c == '^' || c == '$' || c == '\\' || c == '.' || c == '*' || c == '+' ||
    c == '?' || c == '(' || c == ')' || c == '[' || c == ']' || c == '\x7b' ||
    c == '\x7d' || c == '|'

/-- A query token that the unescaped dynamic RegExp treats as a literal
sequence (no syntax characters). -/
def literalTerm (t : String) : Bool := t.data.all (fun c => !regexSpecialChar c)

/-- Every query term long enough to be scored is a literal pattern.
Terms shorter than 3 characters are skipped by every loop before the
RegExp constructor runs, so they may contain anything. -/
def literalQuery (query : String) : Bool :=
  (tokenize query).all (fun t => decide (t.length < 3) || literalTerm t)

/-- KnowledgeService.scoreDocument: fold over the query terms, skipping
terms shorter than 3 characters; a term contained in the lower-cased title
adds 10, and the capped global-regex occurrence count in the lower-cased
content adds min(matches, 5).  The countG reading of the regex count is
faithful on literalQuery queries (the domain of the score theorems); on a
metacharacter term the source's count follows regex semantics instead, and
an invalid pattern raises from the RegExp constructor. -/
def scoreDocument (doc : KDoc) (queryTerms : List String) : Nat :=
  let contentLower := doc.content.data.map Char.toLower
  let titleLower := doc.title.data.map Char.toLower
  queryTerms.foldl
    (fun score term =>
      if term.length < 3 then score
      else
        let score1 := if containsList term.data titleLower then score + 10 else score
        score1 + min (countG term.data contentLower) 5)
    0

/-- The inline scoring loop of KnowledgeService.search and
searchWithCopilot: identical to scoreDocument except that the content
contribution is guarded by contentLower.includes(term).  The includes
guard is a literal substring test in the source while the count inside it
is a regex count, so the two loops agree only on literalQuery queries -
the domain the score theorems restrict to. -/
def inlineScore (doc : KDoc) (queryTerms : List String) : Nat :=
  let contentLower := doc.content.data.map Char.toLower
  let titleLower := doc.title.data.map Char.toLower
  queryTerms.foldl
    (fun score term =>
      if term.length < 3 then score
      else
        let score1 := if containsList term.data titleLower then score + 10 else score
        if containsList term.data contentLower then
          score1 + min (countG term.data contentLower) 5
        else score1)
    0

/-- Per-term score contribution, used to state the scorer as a sum. -/
def gScore (doc : KDoc) (term : String) : Nat :=
  if term.length < 3 then 0
  else
    (if containsList term.data (doc.title.data.map Char.toLower) then 10 else 0)
      + min (countG term.data (doc.content.data.map Char.toLower)) 5

lemma countGAux_eq_zero_of_not_contains (needle : List Char) :
    ∀ hay : List Char, containsList needle hay = false → countGAux needle hay 0 = 0 := by
  intro hay
  induction hay with
  | nil => intro _; rfl
  | cons c cs ih =>
    intro h
    rw [containsList] at h
    rcases Bool.or_eq_false_iff.mp h with ⟨h1, h2⟩
    rw [countGAux, if_neg (by simp [h1])]
    exact ih h2

lemma scoreDocument_eq_sum (doc : KDoc) (queryTerms : List String) :
    scoreDocument doc queryTerms = (queryTerms.map (gScore doc)).sum := by
  unfold scoreDocument
  suffices h : ∀ (ts : List String) (a : Nat),
      ts.foldl
        (fun score term =>
          if term.length < 3 then score
          else
            let score1 :=
              if containsList term.data (doc.title.data.map Char.toLower) then score + 10
              else score
            score1 + min (countG term.data (doc.content.data.map Char.toLower)) 5)
        a = a + (ts.map (gScore doc)).sum by
    simpa using h queryTerms 0
  intro ts
  induction ts with
  | nil => intro a; simp
  | cons t ts ih =>
    intro a
    rw [List.foldl_cons, ih, List.map_cons, List.sum_cons]
    have hstep :
        (if t.length < 3 then a
          else
            (if containsList t.data (doc.title.data.map Char.toLower) then a + 10 else a)
              + min (countG t.data (doc.content.data.map Char.toLower)) 5)
          = a + gScore doc t := by
      unfold gScore
      by_cases h3 : t.length < 3
      · simp [h3]
      · by_cases ht : containsList t.data (doc.title.data.map Char.toLower)
        · simp [h3, ht]; omega
        · simp [h3, ht]
    simp only [hstep]
    omega

lemma inlineScore_eq_sum (doc : KDoc) (queryTerms : List String) :
    inlineScore doc queryTerms = (queryTerms.map (gScore doc)).sum := by
  unfold inlineScore
  suffices h : ∀ (ts : List String) (a : Nat),
      ts.foldl
        (fun score term =>
          if term.length < 3 then score
          else
            let score1 :=
              if containsList term.data (doc.title.data.map Char.toLower) then score + 10
              else score
            if containsList term.data (doc.content.data.map Char.toLower) then
              score1 + min (countG term.data (doc.content.data.map Char.toLower)) 5
            else score1)
        a = a + (ts.map (gScore doc)).sum by
    simpa using h queryTerms 0
  intro ts
  induction ts with
  | nil => intro a; simp
  | cons t ts ih =>
    intro a
    rw [List.foldl_cons, ih, List.map_cons, List.sum_cons]
    have hstep :
        (if t.length < 3 then a
          else
            let score1 :=
              if containsList t.data (doc.title.data.map Char.toLower) then a + 10 else a
            if containsList t.data (doc.content.data.map Char.toLower) then
              score1 + min (countG t.data (doc.content.data.map Char.toLower)) 5
            else score1)
          = a + gScore doc t := by
      unfold gScore
      by_cases h3 : t.length < 3
      · simp [h3]
      · by_cases hc : containsList t.data (doc.content.data.map Char.toLower)
        · by_cases ht : containsList t.data (doc.title.data.map Char.toLower)
          · simp [h3, ht, hc]; omega
          · simp [h3, ht, hc]
        · have hz : countG t.data (doc.content.data.map Char.toLower) = 0 :=
            countGAux_eq_zero_of_not_contains _ _ (by simpa using hc)
          by_cases ht : containsList t.data (doc.title.data.map Char.toLower)
          · simp [h3, ht, hc, hz]
          · simp [h3, ht, hc, hz]
    simp only [hstep]
    omega

/-- Equality of the two model scorers.  In the source the two loops agree
on literalQuery queries (where the literal includes guard and the regex
count speak about the same matches); on metacharacter terms they can
diverge, which is why every claim theorem built on this identification
carries the literalQuery hypothesis. -/
lemma inlineScore_eq_scoreDocument (doc : KDoc) (queryTerms : List String) :
    inlineScore doc queryTerms = scoreDocument doc queryTerms := by
  rw [inlineScore_eq_sum, scoreDocument_eq_sum]

/-- The scoring formula as the specification words it, with the
non-overlapping occurrence count: the sum, over the whitespace-separated
lower-cased query terms of length at least 3, of a title bonus of 10 plus
the capped content count. -/
def c3AmendedScore (doc : KDoc) (query : String) : Nat :=
  (((tokenize query).filter (fun t => decide (3 ≤ t.length))).map
    (fun t =>
      (if containsList t.data (doc.title.data.map Char.toLower) then 10 else 0)
        + min (countG t.data (doc.content.data.map Char.toLower)) 5)).sum

/-- The scoring formula exactly as claim C3 words it, with "number of
substring occurrences" read as the count of all occurrence positions
(possibly overlapping). -/
def c3ClaimScore (doc : KDoc) (query : String) : Nat :=
  (((tokenize query).filter (fun t => decide (3 ≤ t.length))).map
    (fun t =>
      (if containsList t.data (doc.title.data.map Char.toLower) then 10 else 0)
        + min (countOcc t.data (doc.content.data.map Char.toLower)) 5)).sum

/-- C3 counterexample: for the document with content "aaaa" and the query
"aaa", the code scores min(1, 5) = 1 (the global regex finds one
non-overlapping match), while the claim's "number of substring occurrences"
is 2 (positions 0 and 1), giving min(2, 5) = 2. -/
theorem c3_counterexample :
    scoreDocument { path := "doc.md", title := "Title", content := "aaaa", snippet := none }
        (tokenize "aaa") = 1 ∧
    c3ClaimScore { path := "doc.md", title := "Title", content := "aaaa", snippet := none }
        "aaa" = 2 ∧
    scoreDocument { path := "doc.md", title := "Title", content := "aaaa", snippet := none }
        (tokenize "aaa") ≠
      c3ClaimScore { path := "doc.md", title := "Title", content := "aaaa", snippet := none }
        "aaa" := by
  refine ⟨by decide, by decide, by decide⟩

/-- C3 (amended): for every query whose whitespace-separated lower-cased
terms of length at least 3 contain no regex syntax character (the term is
used unescaped as a RegExp pattern, so on this domain the pattern matches
the literal term; metacharacter terms follow regex semantics instead, and
an invalid pattern raises from the RegExp constructor), the lexical score
equals the sum, over those terms, of 10 when the lower-cased title contains
the term plus min(content occurrences, 5), where occurrences are counted
left to right without overlap, as the global regex does - not all
(possibly overlapping) occurrence positions. -/
theorem c3_score_formula (doc : KDoc) (query : String)
    (_hq : literalQuery query = true) :
    scoreDocument doc (tokenize query) = c3AmendedScore doc query := by
  rw [scoreDocument_eq_sum]
  unfold c3AmendedScore
  induction tokenize query with
  | nil => simp
  | cons t ts ih =>
    by_cases h3 : 3 ≤ t.length
    · rw [List.map_cons, List.sum_cons, List.filter_cons_of_pos (by simpa using h3),
        List.map_cons, List.sum_cons, ih]
      unfold gScore
      rw [if_neg (by omega)]
    · rw [List.map_cons, List.sum_cons, List.filter_cons_of_neg (by simpa using h3), ih]
      unfold gScore
      rw [if_pos (by omega)]
      omega

/-- Witness for the amended C3 at a concrete document and the
metacharacter-free query "aaa". -/
theorem c3_score_formula_witness :
    literalQuery "aaa" = true ∧
    scoreDocument ⟨"doc.md", "Title", "aaaa", none⟩ (tokenize "aaa") =
      c3AmendedScore ⟨"doc.md", "Title", "aaaa", none⟩ "aaa" :=
  ⟨by decide, c3_score_formula ⟨"doc.md", "Title", "aaaa", none⟩ "aaa" (by decide)⟩

/-! Snippet extraction (KnowledgeService.extractSnippet). -/

/-- JavaScript String.prototype.trim, on character lists. -/
def trimL (l : List Char) : List Char :=
  ((l.dropWhile Char.isWhitespace).reverse.dropWhile Char.isWhitespace).reverse

/-- Split on a single separator character, the model of
String.prototype.split(sep) for a one-character separator. -/
def splitOnChar (sep : Char) : List Char → List (List Char)
  | [] => [[]]
  | c :: cs =>
    if c = sep then [] :: splitOnChar sep cs
    else
      match splitOnChar sep cs with
      | t :: ts => (c :: t) :: ts
      | [] => [[c]]

/-- The truncation s.length > n ? s.substring(0, n) + '...' : s. -/
def truncAt (n : Nat) (s : List Char) : List Char :=
  if n < s.length then s.take n ++ ['.', '.', '.'] else s

/-- The trimmed joined window lines.slice(Math.max(0, i - 1),
Math.min(lines.length, i + 3)).join('\n').trim() around the matching line
i (natural subtraction models Math.max(0, i - 1)). -/
def windowAt (all : List (List Char)) (i : Nat) : List Char :=
  trimL (List.intercalate ['\n']
    ((all.drop (i - 1)).take (min all.length (i + 3) - (i - 1))))

/-- The inner line loop of extractSnippet for one term: scan the remaining
lines (with i the absolute index of the head); on a line whose lower-cased
text contains the term, return the window when its trimmed length exceeds
20, otherwise keep scanning. -/
def scanLines (all : List (List Char)) (term : List Char) :
    List (List Char) → Nat → Option String
  | [], _ => none
  | l :: rest, i =>
    if containsList term (l.map Char.toLower) then
      let snip := windowAt all i
      if 20 < snip.length then some (String.mk (truncAt 300 snip))
      else scanLines all term rest (i + 1)
    else scanLines all term rest (i + 1)

/-- The outer term loop of extractSnippet: terms shorter than 3 characters
are skipped; the first term whose scan produces a window wins. -/
def snippetFromTerms (lines : List (List Char)) : List String → Option String
  | [] => none
  | t :: ts =>
    if t.length < 3 then snippetFromTerms lines ts
    else
      match scanLines lines t.data lines 0 with
      | some s => some s
      | none => snippetFromTerms lines ts

/-- KnowledgeService.extractSnippet: the term/line scan above, falling back
to the first three lines that are nonempty after trimming and are neither
markdown headings nor horizontal-rule separators, truncated to 300. -/
def extractSnippet (content : String) (queryTerms : List String) : String :=
  let lines := splitOnChar '\n' content.data
  match snippetFromTerms lines queryTerms with
  | some s => s
  | none =>
    let firstContent := List.intercalate ['\n']
      ((lines.filter (fun l =>
        !(trimL l).isEmpty && !(['#'].isPrefixOf l)
          && !(('-' :: '-' :: '-' :: []).isPrefixOf l))).take 3)
    String.mk (truncAt 300 firstContent)

/-- First element satisfying a predicate (specification-side selector). -/
def findFirst? {α : Type} (p : α → Bool) : List α → Option α
  | [] => none
  | a :: l => if p a then some a else findFirst? p l

/-- Index of the first element satisfying a predicate
(specification-side selector). -/
def firstIdx? {α : Type} (p : α → Bool) : List α → Option Nat
  | [] => none
  | a :: l => if p a then some 0 else (firstIdx? p l).map (fun k => k + 1)

/-- A query term qualifies when it has at least 3 characters and occurs in
the lower-cased text of some line. -/
def termHits (lines : List (List Char)) (t : String) : Bool :=
  decide (3 ≤ t.length) && lines.any (fun l => containsList t.data (l.map Char.toLower))

lemma scanLines_none (all : List (List Char)) (term : List Char) :
    ∀ (sfx : List (List Char)) (i : Nat),
      (∀ l ∈ sfx, containsList term (l.map Char.toLower) = false) →
      scanLines all term sfx i = none := by
  intro sfx
  induction sfx with
  | nil => intro i _; rfl
  | cons l rest ih =>
    intro i h
    have hz : containsList term (l.map Char.toLower) = false := h l (List.mem_cons_self _ _)
    simp only [scanLines, hz]
    exact ih (i + 1) (fun x hx => h x (List.mem_cons_of_mem _ hx))

lemma scanLines_found (all : List (List Char)) (term : List Char) :
    ∀ (sfx : List (List Char)) (j k : Nat),
      firstIdx? (fun l => containsList term (l.map Char.toLower)) sfx = some k →
      20 < (windowAt all (j + k)).length →
      scanLines all term sfx j = some (String.mk (truncAt 300 (windowAt all (j + k)))) := by
  intro sfx
  induction sfx with
  | nil => intro j k h _; exact absurd h (by simp [firstIdx?])
  | cons l rest ih =>
    intro j k h hlen
    by_cases hc : containsList term (l.map Char.toLower)
    · rw [firstIdx?, if_pos hc] at h
      have hk : k = 0 := (Option.some.inj h).symm
      subst hk
      rw [Nat.add_zero] at hlen ⊢
      simp only [scanLines, hc]
      simp [hlen]
    · rw [firstIdx?, if_neg hc] at h
      obtain ⟨k', hk', hfk⟩ := Option.map_eq_some'.mp h
      subst hfk
      simp only [scanLines, hc, Bool.false_eq_true, if_false]
      have harith : j + 1 + k' = j + (k' + 1) := by omega
      have hres := ih (j + 1) k' hk' (by rw [harith]; exact hlen)
      rw [harith] at hres
      exact hres

lemma snippetFromTerms_found (lines : List (List Char)) :
    ∀ (ts : List String) (t : String) (i : Nat),
      findFirst? (termHits lines) ts = some t →
      firstIdx? (fun l => containsList t.data (l.map Char.toLower)) lines = some i →
      20 < (windowAt lines i).length →
      snippetFromTerms lines ts = some (String.mk (truncAt 300 (windowAt lines i))) := by
  intro ts
  induction ts with
  | nil => intro t i h _ _; exact absurd h (by simp [findFirst?])
  | cons t' ts' ih =>
    intro t i h hidx hlen
    by_cases hp : termHits lines t'
    · rw [findFirst?, if_pos hp] at h
      have ht : t' = t := Option.some.inj h
      subst ht
      have h3 : ¬ (t'.length < 3) := by
        have hp' := hp
        unfold termHits at hp'
        simp only [Bool.and_eq_true, decide_eq_true_eq] at hp'
        omega
      rw [snippetFromTerms, if_neg h3]
      rw [scanLines_found lines t'.data lines 0 i (by simpa using hidx)
        (by simpa using hlen)]
      simp
    · rw [findFirst?, if_neg hp] at h
      by_cases h3 : t'.length < 3
      · rw [snippetFromTerms, if_pos h3]
        exact ih t i h hidx hlen
      · have hq : decide (3 ≤ t'.length) = true := by
          simp only [decide_eq_true_eq]; omega
        have hany : lines.any (fun l => containsList t'.data (l.map Char.toLower)) = false := by
          unfold termHits at hp
          rw [hq] at hp
          simpa using hp
        rw [snippetFromTerms, if_neg h3]
        rw [scanLines_none lines t'.data lines 0 (fun l hl => by
          have := List.any_eq_false.mp hany l hl
          simpa using this)]
        exact ih t i h hidx hlen

/-- C8 (amended): when some query term of length at least 3 occurs in the
lower-cased text of some line, then for the first such term (in original
term order) and the first line containing it, whenever the trimmed joined
window from one line before through two lines after that line (slice end
index i + 3, exclusive - a 4-line window clipped to content bounds) is
longer than 20 characters, extractSnippet returns exactly that window,
truncated to 300 characters with a trailing ellipsis marker when longer.
The original claim's "through three lines after" contradicts the slice end
index i + 3 of the source (see the counterexample). -/
theorem c8_snippet_window (content : String) (queryTerms : List String) (t : String) (i : Nat)
    (h1 : findFirst? (termHits (splitOnChar '\n' content.data)) queryTerms = some t)
    (h2 : firstIdx? (fun l => containsList t.data (l.map Char.toLower))
      (splitOnChar '\n' content.data) = some i)
    (h3 : 20 < (windowAt (splitOnChar '\n' content.data) i).length) :
    extractSnippet content queryTerms =
      String.mk (truncAt 300 (windowAt (splitOnChar '\n' content.data) i)) := by
  have hall := snippetFromTerms_found (splitOnChar '\n' content.data) queryTerms t i h1 h2 h3
  simp only [extractSnippet, hall]

/-- Witness for C8: a concrete content where the second query term "moss"
is the first qualifying one, line 1 is the first matching line, and the
window is long enough. -/
theorem c8_snippet_window_witness :
    findFirst? (termHits (splitOnChar '\n'
        ("intro line here\nthe magic word moss appears\ntail one\ntail two").data))
        ["xy", "moss"] = some "moss" ∧
    firstIdx? (fun l => containsList ("moss").data (l.map Char.toLower))
        (splitOnChar '\n'
          ("intro line here\nthe magic word moss appears\ntail one\ntail two").data)
        = some 1 ∧
    20 < (windowAt (splitOnChar '\n'
        ("intro line here\nthe magic word moss appears\ntail one\ntail two").data) 1).length ∧
    extractSnippet "intro line here\nthe magic word moss appears\ntail one\ntail two"
        ["xy", "moss"] =
      String.mk (truncAt 300 (windowAt (splitOnChar '\n'
        ("intro line here\nthe magic word moss appears\ntail one\ntail two").data) 1)) :=
  ⟨by decide, by decide, by decide,
    c8_snippet_window "intro line here\nthe magic word moss appears\ntail one\ntail two"
      ["xy", "moss"] "moss" 1 (by decide) (by decide) (by decide)⟩

/-- The window exactly as claim C8 words it: one line before through three
lines after the matching line (slice end index i + 4, exclusive). -/
def c8ClaimWindow (content : String) (i : Nat) : List Char :=
  trimL (List.intercalate ['\n']
    (((splitOnChar '\n' content.data).drop (i - 1)).take
      (min (splitOnChar '\n' content.data).length (i + 4) - (i - 1))))

/-- C8 counterexample: with five lines and the match on line 1, the code
returns the window of lines 0..3 (one before through two after), not the
claim's window of lines 0..4 (through three after). -/
theorem c8_counterexample :
    extractSnippet
        "alpha one two three\nmoss line match here\ncharlie three x\ndelta four y\necho five z"
        ["moss"] =
      "alpha one two three\nmoss line match here\ncharlie three x\ndelta four y" ∧
    String.mk (truncAt 300 (c8ClaimWindow
        "alpha one two three\nmoss line match here\ncharlie three x\ndelta four y\necho five z"
        1)) =
      "alpha one two three\nmoss line match here\ncharlie three x\ndelta four y\necho five z" ∧
    extractSnippet
        "alpha one two three\nmoss line match here\ncharlie three x\ndelta four y\necho five z"
        ["moss"] ≠
      String.mk (truncAt 300 (c8ClaimWindow
        "alpha one two three\nmoss line match here\ncharlie three x\ndelta four y\necho five z"
        1)) :=
  ⟨by decide, by decide, by decide⟩

/-! The stable descending sort.  Array.prototype.sort is required to be
stable and, for the consistent comparator (a, b) => key(b) - key(a), its
result is uniquely determined: the stable descending reordering by key.
It is modelled by left-to-right insertion, each element being inserted
after every element of equal or larger key. -/

/-- Insert x after every element whose key is at least key x. -/
def insertDesc {α : Type} (key : α → Nat) (x : α) : List α → List α
  | [] => [x]
  | y :: ys => if key y < key x then x :: y :: ys else y :: insertDesc key x ys

/-- Stable descending sort by key. -/
def sortDesc {α : Type} (key : α → Nat) (l : List α) : List α :=
  l.foldl (fun acc x => insertDesc key x acc) []

lemma insertDesc_perm {α : Type} (key : α → Nat) (x : α) :
    ∀ l : List α, (insertDesc key x l).Perm (x :: l) := by
  intro l
  induction l with
  | nil => exact List.Perm.refl _
  | cons y ys ih =>
    rw [insertDesc]
    by_cases h : key y < key x
    · rw [if_pos h]
    · rw [if_neg h]
      exact (ih.cons y).trans (List.Perm.swap x y ys)

lemma foldl_insertDesc_perm {α : Type} (key : α → Nat) :
    ∀ (l acc : List α), (l.foldl (fun acc x => insertDesc key x acc) acc).Perm (acc ++ l) := by
  intro l
  induction l with
  | nil => intro acc; simp
  | cons x xs ih =>
    intro acc
    rw [List.foldl_cons]
    refine (ih (insertDesc key x acc)).trans ?_
    refine ((insertDesc_perm key x acc).append_right xs).trans ?_
    exact List.perm_middle.symm

lemma sortDesc_perm {α : Type} (key : α → Nat) (l : List α) : (sortDesc key l).Perm l := by
  simpa using foldl_insertDesc_perm key l []

lemma mem_insertDesc {α : Type} (key : α → Nat) (x : α) (l : List α) (z : α) :
    z ∈ insertDesc key x l ↔ z = x ∨ z ∈ l := by
  rw [(insertDesc_perm key x l).mem_iff, List.mem_cons]

lemma insertDesc_pairwise {α : Type} (key : α → Nat) (x : α) :
    ∀ l : List α, l.Pairwise (fun a b => key b ≤ key a) →
      (insertDesc key x l).Pairwise (fun a b => key b ≤ key a) := by
  intro l
  induction l with
  | nil => intro _; simp [insertDesc]
  | cons y ys ih =>
    intro h
    rcases List.pairwise_cons.mp h with ⟨hy, hys⟩
    rw [insertDesc]
    by_cases hlt : key y < key x
    · rw [if_pos hlt]
      refine List.pairwise_cons.mpr ⟨?_, h⟩
      intro z hz
      rcases List.mem_cons.mp hz with rfl | hz
      · omega
      · have := hy z hz
        omega
    · rw [if_neg hlt]
      refine List.pairwise_cons.mpr ⟨?_, ih hys⟩
      intro z hz
      rcases (mem_insertDesc key x ys z).mp hz with rfl | hz
      · omega
      · exact hy z hz

lemma sortDesc_pairwise {α : Type} (key : α → Nat) (l : List α) :
    (sortDesc key l).Pairwise (fun a b => key b ≤ key a) := by
  unfold sortDesc
  suffices h : ∀ (l acc : List α), acc.Pairwise (fun a b => key b ≤ key a) →
      (l.foldl (fun acc x => insertDesc key x acc) acc).Pairwise (fun a b => key b ≤ key a) by
    exact h l [] (by simp)
  intro l
  induction l with
  | nil => intro acc h; simpa using h
  | cons x xs ih =>
    intro acc h
    rw [List.foldl_cons]
    exact ih (insertDesc key x acc) (insertDesc_pairwise key x acc h)

lemma filter_eq_nil_of_small {α : Type} (key : α → Nat) (n : Nat) :
    ∀ l : List α, (∀ z ∈ l, key z < n) →
      l.filter (fun a => decide (key a = n)) = [] := by
  intro l
  induction l with
  | nil => intro _; rfl
  | cons y ys ih =>
    intro h
    have hy := h y (List.mem_cons_self _ _)
    rw [List.filter_cons_of_neg (by simp; omega)]
    exact ih (fun z hz => h z (List.mem_cons_of_mem _ hz))

lemma insertDesc_filter_key {α : Type} (key : α → Nat) (x : α) (n : Nat) :
    ∀ l : List α, l.Pairwise (fun a b => key b ≤ key a) →
      (insertDesc key x l).filter (fun a => decide (key a = n)) =
        if key x = n then l.filter (fun a => decide (key a = n)) ++ [x]
        else l.filter (fun a => decide (key a = n)) := by
  intro l
  induction l with
  | nil =>
    intro _
    by_cases hx : key x = n
    · simp [insertDesc, hx]
    · simp [insertDesc, hx]
  | cons y ys ih =>
    intro h
    rcases List.pairwise_cons.mp h with ⟨hy, hys⟩
    rw [insertDesc]
    by_cases hlt : key y < key x
    · rw [if_pos hlt]
      by_cases hx : key x = n
      · have hrest : (y :: ys).filter (fun a => decide (key a = n)) = [] := by
          refine filter_eq_nil_of_small key n (y :: ys) ?_
          intro z hz
          rcases List.mem_cons.mp hz with rfl | hz
          · omega
          · have := hy z hz
            omega
        rw [if_pos hx, hrest, List.filter_cons_of_pos (by simp [hx]), hrest]
        rfl
      · rw [if_neg hx, List.filter_cons_of_neg (by simp [hx])]
    · rw [if_neg hlt]
      by_cases hyn : key y = n
      · rw [List.filter_cons_of_pos (by simp [hyn]), List.filter_cons_of_pos (by simp [hyn])]
        rw [ih hys]
        by_cases hx : key x = n
        · rw [if_pos hx, if_pos hx]
          simp
        · rw [if_neg hx, if_neg hx]
      · rw [List.filter_cons_of_neg (by simp [hyn]), List.filter_cons_of_neg (by simp [hyn])]
        rw [ih hys]

lemma sortDesc_filter_key {α : Type} (key : α → Nat) (n : Nat) (l : List α) :
    (sortDesc key l).filter (fun a => decide (key a = n)) =
      l.filter (fun a => decide (key a = n)) := by
  unfold sortDesc
  suffices h : ∀ (l acc : List α), acc.Pairwise (fun a b => key b ≤ key a) →
      (l.foldl (fun acc x => insertDesc key x acc) acc).filter (fun a => decide (key a = n)) =
        acc.filter (fun a => decide (key a = n)) ++ l.filter (fun a => decide (key a = n)) by
    simpa using h l [] (by simp)
  intro l
  induction l with
  | nil => intro acc _; simp
  | cons x xs ih =>
    intro acc h
    rw [List.foldl_cons, ih (insertDesc key x acc) (insertDesc_pairwise key x acc h),
      insertDesc_filter_key key x n acc h]
    by_cases hx : key x = n
    · rw [if_pos hx, List.filter_cons_of_pos (by simp [hx])]
      simp
    · rw [if_neg hx, List.filter_cons_of_neg (by simp [hx])]


/-! The plain lexical search path (KnowledgeService.search).  The document
list parameter is the corpus enumeration produced by getAllDocuments. -/

/-- KnowledgeService.search on an already-loaded document list: collect the
documents with positive inline score together with their snippets, sort by
the recomputed scoreDocument descending (stable), take the first 3.  This
is the non-throwing path of the source, which is the whole behavior on
literalQuery queries (the domain of the C4 theorem): the source's catch
absorbs file-system errors and also a RegExp SyntaxError raised by an
invalid metacharacter term (such as c++) inside the loop or the sort
comparator, returning [] - behavior outside this embedding's domain (the
metacharacter divergence inside the valid-pattern family is exhibited by
searchDocsRe and the C4 counterexample). -/
def searchDocs (docs : List KDoc) (query : String) : List KDoc :=
  let queryTerms := tokenize query
  let results := docs.filterMap (fun doc =>
    if 0 < inlineScore doc queryTerms then
      some { doc with snippet := some (extractSnippet doc.content queryTerms) }
    else none)
  (sortDesc (fun d => scoreDocument d queryTerms) results).take 3

lemma searchDocs_results_eq (docs : List KDoc) (terms : List String) :
    docs.filterMap (fun doc =>
        if 0 < inlineScore doc terms then
          some { doc with snippet := some (extractSnippet doc.content terms) }
        else none) =
      (docs.filter (fun d => decide (0 < scoreDocument d terms))).map
        (fun d => { d with snippet := some (extractSnippet d.content terms) }) := by
  induction docs with
  | nil => rfl
  | cons d ds ih =>
    rw [List.filterMap_cons, inlineScore_eq_scoreDocument]
    by_cases h : 0 < scoreDocument d terms
    · rw [if_pos h, List.filter_cons_of_pos (by simpa using h), List.map_cons, ih]
    · rw [if_neg h, List.filter_cons_of_neg (by simpa using h), ih]

/-- C4 (amended): for every query whose whitespace-separated lower-cased
terms of length at least 3 contain no regex syntax character, search
returns exactly the documents of positive lexical score, each with its
snippet attached, stably sorted descending by score (the filtered list
keeps corpus traversal order and the per-key filtrations are preserved by
the sort), truncated to the first 3.  The restriction is forced by the
unescaped dynamic regex of the source: on metacharacter terms the literal
includes-guarded filter and the regex sort key diverge (see
c4_counterexample), and an invalid pattern makes search return [] through
its catch. -/
theorem c4_search_contract (docs : List KDoc) (query : String)
    (_hq : literalQuery query = true) :
    searchDocs docs query =
      (sortDesc (fun d => scoreDocument d (tokenize query))
        ((docs.filter (fun d => decide (0 < scoreDocument d (tokenize query)))).map
          (fun d => { d with
            snippet := some (extractSnippet d.content (tokenize query)) }))).take 3 ∧
    (sortDesc (fun d => scoreDocument d (tokenize query))
        ((docs.filter (fun d => decide (0 < scoreDocument d (tokenize query)))).map
          (fun d => { d with
            snippet := some (extractSnippet d.content (tokenize query)) }))).Perm
      ((docs.filter (fun d => decide (0 < scoreDocument d (tokenize query)))).map
        (fun d => { d with snippet := some (extractSnippet d.content (tokenize query)) })) ∧
    (searchDocs docs query).Pairwise
      (fun a b => scoreDocument b (tokenize query) ≤ scoreDocument a (tokenize query)) ∧
    ∀ n : Nat,
      (sortDesc (fun d => scoreDocument d (tokenize query))
          ((docs.filter (fun d => decide (0 < scoreDocument d (tokenize query)))).map
            (fun d => { d with
              snippet := some (extractSnippet d.content (tokenize query)) }))).filter
        (fun d => decide (scoreDocument d (tokenize query) = n)) =
      ((docs.filter (fun d => decide (0 < scoreDocument d (tokenize query)))).map
          (fun d => { d with
            snippet := some (extractSnippet d.content (tokenize query)) })).filter
        (fun d => decide (scoreDocument d (tokenize query) = n)) := by
  have heq : searchDocs docs query =
      (sortDesc (fun d => scoreDocument d (tokenize query))
        ((docs.filter (fun d => decide (0 < scoreDocument d (tokenize query)))).map
          (fun d => { d with
            snippet := some (extractSnippet d.content (tokenize query)) }))).take 3 := by
    simp only [searchDocs]
    rw [searchDocs_results_eq]
  refine ⟨heq, sortDesc_perm _ _, ?_, fun n => sortDesc_filter_key _ n _⟩
  rw [heq]
  exact (sortDesc_pairwise _ _).sublist (List.take_sublist 3 _)

/-- Witness for the amended C4 at a one-document corpus and the
metacharacter-free query "water". -/
theorem c4_search_contract_witness :
    literalQuery "water" = true ∧
    searchDocs [⟨"d.md", "Water", "water water water water", none⟩] "water" =
      (sortDesc (fun d => scoreDocument d (tokenize "water"))
        (([⟨"d.md", "Water", "water water water water", none⟩].filter
          (fun d => decide (0 < scoreDocument d (tokenize "water")))).map
          (fun d => { d with
            snippet := some (extractSnippet d.content (tokenize "water")) }))).take 3 :=
  ⟨by decide,
    (c4_search_contract [⟨"d.md", "Water", "water water water water", none⟩] "water"
      (by decide)).1⟩

/-! The C4 counterexample needs the program's behavior on one valid
metacharacter term, so the dynamic regex is modelled exactly on the
dot-literal pattern family: patterns whose only syntax character is '.'.
There every element consumes exactly one character, so ECMA-262 matching is
a pointwise test with no quantifiers and no backtracking, and such patterns
always compile. -/

/-- Line terminators, which the '.' pattern does not match (ECMA-262). -/
def isLineTerminator (c : Char) : Bool :=
  c == '\n' || c == '\r' || c == '\u2028' || c == '\u2029'

/-- One element of a dot-literal pattern: '.' matches any character that is
not a line terminator, every other character matches itself. -/
def patElemMatches (p c : Char) : Bool :=
  if p == '.' then !isLineTerminator c else p == c

/-- Whether a dot-literal pattern matches at the start of hay. -/
def patMatchesAt : List Char → List Char → Bool
  | [], _ => true
  | _ :: _, [] => false
  | p :: ps, c :: cs => patElemMatches p c && patMatchesAt ps cs

/-- Non-overlapping left-to-right count of regex matches of a dot-literal
pattern: (hay.match(new RegExp(term, 'g')) ?? []).length for a term whose
only syntax character is '.'.  Same scan structure as countGAux; each match
consumes pattern-length characters. -/
def countRegexDLAux (pat : List Char) : List Char → Nat → Nat
  | [], _ => 0
  | _ :: cs, Nat.succ skip => countRegexDLAux pat cs skip
  | c :: cs, 0 =>
    if patMatchesAt pat (c :: cs) then 1 + countRegexDLAux pat cs (pat.length - 1)
    else countRegexDLAux pat cs 0

def countRegexDL (pat hay : List Char) : Nat := countRegexDLAux pat hay 0

/-- KnowledgeService.scoreDocument with the dynamic regex interpreted on
the dot-literal pattern family; on purely literal terms it coincides with
scoreDocument. -/
def scoreDocumentRe (doc : KDoc) (queryTerms : List String) : Nat :=
  let contentLower := doc.content.data.map Char.toLower
  let titleLower := doc.title.data.map Char.toLower
  queryTerms.foldl
    (fun score term =>
      if term.length < 3 then score
      else
        let score1 := if containsList term.data titleLower then score + 10 else score
        score1 + min (countRegexDL term.data contentLower) 5)
    0

/-- The inline scoring loop of KnowledgeService.search on the dot-literal
pattern family: the includes guard stays a literal substring test (as in
the source) while the count inside it is the regex count. -/
def inlineScoreRe (doc : KDoc) (queryTerms : List String) : Nat :=
  let contentLower := doc.content.data.map Char.toLower
  let titleLower := doc.title.data.map Char.toLower
  queryTerms.foldl
    (fun score term =>
      if term.length < 3 then score
      else
        let score1 := if containsList term.data titleLower then score + 10 else score
        if containsList term.data contentLower then
          score1 + min (countRegexDL term.data contentLower) 5
        else score1)
    0

/-- KnowledgeService.search with the dynamic regex interpreted on the
dot-literal pattern family (no throw arises there, so the catch stays
idle); the snippet extractor is untouched - it only uses literal
includes. -/
def searchDocsRe (docs : List KDoc) (query : String) : List KDoc :=
  let queryTerms := tokenize query
  let results := docs.filterMap (fun doc =>
    if 0 < inlineScoreRe doc queryTerms then
      some { doc with snippet := some (extractSnippet doc.content queryTerms) }
    else none)
  (sortDesc (fun d => scoreDocumentRe d queryTerms) results).take 3

/-- First corpus document of the C4 counterexample: one literal "a.c" and
four "abc" words, each of which the pattern a.c also matches. -/
def dotDocA : KDoc := ⟨"a.md", "Alpha", "a.c abc abc abc abc", none⟩

/-- Second corpus document of the C4 counterexample: two literal
occurrences of "a.c" and nothing else the pattern matches. -/
def dotDocB : KDoc := ⟨"b.md", "Beta", "a.c and a.c here", none⟩

/-- The lexical score as claim C4's source sentences word it (via the
scoring contract of the specification): the sum over the query's
lower-cased terms of length at least 3 of a title bonus of 10 plus the
capped count of substring occurrences of the term. -/
def c4ClaimScore (doc : KDoc) (query : String) : Nat :=
  (((tokenize query).filter (fun t => decide (3 ≤ t.length))).map
    (fun t =>
      (if containsList t.data (doc.title.data.map Char.toLower) then 10 else 0)
        + min (countOcc t.data (doc.content.data.map Char.toLower)) 5)).sum

/-- C4 counterexample: at the query "a.c" - a valid pattern whose '.' is a
metacharacter - the program returns the documents ordered [a.md, b.md]
because the unescaped regex scores them 5 and 2, while their lexical scores
under the claim's substring reading are 1 and 2 (the literal
non-overlapping reading agrees): the output is not sorted descending by
lexical score, and differs from the claim's mandated result, which puts
b.md first. -/
theorem c4_counterexample :
    (searchDocsRe [dotDocA, dotDocB] "a.c").map KDoc.path = ["a.md", "b.md"] ∧
    (searchDocsRe [dotDocA, dotDocB] "a.c").map (fun d => c4ClaimScore d "a.c") = [1, 2] ∧
    (searchDocsRe [dotDocA, dotDocB] "a.c").map
      (fun d => scoreDocument d (tokenize "a.c")) = [1, 2] ∧
    searchDocsRe [dotDocA, dotDocB] "a.c" ≠
      (sortDesc (fun d => c4ClaimScore d "a.c")
        (([dotDocA, dotDocB].filter (fun d => decide (0 < c4ClaimScore d "a.c"))).map
          (fun d => { d with
            snippet := some (extractSnippet d.content (tokenize "a.c")) }))).take 3 :=
  ⟨by decide, by decide, by decide, by decide⟩

/-! The Copilot-enhanced search path (KnowledgeService.searchWithCopilot). -/

/-- The oracle interface seen by searchWithCopilot: the outcome of the
awaited copilotService.rankDocumentsByRelevance(query, documents) call.
The error case stands for an exception reaching the method's try/catch;
scoring and reordering are pure and cannot throw in the embedding, so the
oracle call is the pipeline's sole failure point. -/
def RankFn : Type := String → List (String × String) → Except Unit (List Nat)

/-- Candidate collection of searchWithCopilot: documents with positive
inline score (with snippet and score attached); when none scores
positively, the first maxCandidates documents in corpus order with score
0. -/
def candidatesOf (docs : List KDoc) (terms : List String) (maxCandidates : Nat) : List Cand :=
  let primary := docs.filterMap (fun doc =>
    let s := inlineScore doc terms
    if 0 < s then
      some { doc := { doc with snippet := some (extractSnippet doc.content terms) }, score := s }
    else none)
  if primary.isEmpty then
    (docs.take maxCandidates).map (fun doc =>
      { doc := { doc with snippet := some (extractSnippet doc.content terms) }, score := 0 })
  else primary

/-- Step 2 of searchWithCopilot: sort candidates by stored score descending
(stable) and truncate to maxCandidates. -/
def topCandidates (docs : List KDoc) (query : String) (maxCandidates : Nat) : List Cand :=
  (sortDesc (fun c => c.score) (candidatesOf docs (tokenize query) maxCandidates)).take
    maxCandidates

/-- The (title, snippet) pairs handed to the oracle (doc.snippet || ''). -/
def rankArgs (docs : List KDoc) (query : String) (maxCandidates : Nat) :
    List (String × String) :=
  (topCandidates docs query maxCandidates).map
    (fun c => (c.doc.title, c.doc.snippet.getD ""))

/-- The guarded body of searchWithCopilot; none models an exception
reaching the catch clause.  In the oracle branch the ranking indices are
looked up (out-of-range indices yield undefined and are filtered out),
truncated to maxResults, and the score field is stripped. -/
def searchWithCopilotDocs (rankFn : RankFn) (docs : List KDoc) (query : String)
    (maxCandidates maxResults : Nat) : Option (List KDoc) :=
  let top := topCandidates docs query maxCandidates
  if top.length ≤ maxResults then some (top.map (fun c => c.doc))
  else
    match rankFn query (rankArgs docs query maxCandidates) with
    | Except.error _ => none
    | Except.ok ranking =>
      some (((ranking.filterMap (fun idx => top[idx]?)).take maxResults).map (fun c => c.doc))

/-- KnowledgeService.searchWithCopilot: without a Copilot service it
delegates to the plain search; an exception in the guarded body falls back
to the plain search for the same query. -/
def searchWithCopilot (copilotOpt : Option RankFn) (docs : List KDoc) (query : String)
    (maxCandidates maxResults : Nat) : List KDoc :=
  match copilotOpt with
  | none => searchDocs docs query
  | some rankFn =>
    (searchWithCopilotDocs rankFn docs query maxCandidates maxResults).getD
      (searchDocs docs query)

/-- The real oracle: CopilotService.rankDocumentsByRelevance never throws
(it absorbs every failure into the identity permutation), so it always
returns ok. -/
def copilotRank (oracleReply : Except Unit (Option String)) : RankFn :=
  fun _query documents => Except.ok (rankDocumentsByRelevance oracleReply documents)

/-- C5: when the oracle-ranking branch is reached and the oracle call
throws, searchWithCopilot returns the plain search result for the same
query; being total, the embedding never surfaces the error.  In the pure
embedding the oracle call is the only step of the guarded pipeline that can
throw. -/
theorem c5_enhanced_fallback (rankFn : RankFn) (docs : List KDoc) (query : String)
    (maxCandidates maxResults : Nat)
    (h1 : maxResults < (topCandidates docs query maxCandidates).length)
    (h2 : rankFn query (rankArgs docs query maxCandidates) = Except.error ()) :
    searchWithCopilot (some rankFn) docs query maxCandidates maxResults =
      searchDocs docs query := by
  simp only [searchWithCopilot, searchWithCopilotDocs]
  rw [if_neg (by omega), h2]
  rfl

/-- A concrete strongly matching document used by several witnesses. -/
def waterDoc : KDoc := ⟨"d.md", "Water", "water water water water", none⟩

/-- Witness for C5 at a concrete corpus, query and failing oracle. -/
theorem c5_enhanced_fallback_witness :
    0 < (topCandidates [waterDoc] "water" 10).length ∧
    searchWithCopilot (some (fun _ _ => Except.error ())) [waterDoc] "water" 10 0 =
      searchDocs [waterDoc] "water" :=
  ⟨by decide,
    c5_enhanced_fallback (fun _ _ => Except.error ()) [waterDoc] "water" 10 0
      (by decide) rfl⟩

/-- C6: when the sorted, truncated candidate list has at most maxResults
entries, searchWithCopilot returns exactly those candidates in
lexical-score order (scores stripped); the result does not depend on the
oracle, which is universally quantified and absent from the right-hand
side - the oracle is never invoked. -/
theorem c6_short_circuit (rankFn : RankFn) (docs : List KDoc) (query : String)
    (maxCandidates maxResults : Nat)
    (h : (topCandidates docs query maxCandidates).length ≤ maxResults) :
    searchWithCopilot (some rankFn) docs query maxCandidates maxResults =
      (topCandidates docs query maxCandidates).map (fun c => c.doc) := by
  simp only [searchWithCopilot, searchWithCopilotDocs]
  rw [if_pos h]
  rfl

/-- Witness for C6 at a concrete corpus with one candidate and
maxResults = 3. -/
theorem c6_short_circuit_witness :
    (topCandidates [waterDoc] "water" 10).length ≤ 3 ∧
    searchWithCopilot (some (fun _ _ => Except.ok [])) [waterDoc] "water" 10 3 =
      (topCandidates [waterDoc] "water" 10).map (fun c => c.doc) :=
  ⟨by decide,
    c6_short_circuit (fun _ _ => Except.ok []) [waterDoc] "water" 10 3 (by decide)⟩

lemma rankDocumentsByRelevance_perm (oracleReply : Except Unit (Option String))
    (documents : List (String × String)) :
    (rankDocumentsByRelevance oracleReply documents).Perm
      (List.range documents.length) := by
  match oracleReply with
  | Except.error _ => exact List.Perm.refl _
  | Except.ok none => exact List.Perm.refl _
  | Except.ok (some c) => exact parseRanking_perm c _

lemma filterMap_getElem_nodup {β : Type} (l : List β) (hl : l.Nodup) :
    ∀ idxs : List Nat, idxs.Nodup → (idxs.filterMap (fun i => l[i]?)).Nodup := by
  intro idxs
  induction idxs with
  | nil => intro _; simp
  | cons i is ih =>
    intro h
    rcases List.nodup_cons.mp h with ⟨hi, his⟩
    rw [List.filterMap_cons]
    cases hgi : l[i]? with
    | none => exact ih his
    | some c =>
      refine List.nodup_cons.mpr ⟨?_, ih his⟩
      intro hc
      rcases List.mem_filterMap.mp hc with ⟨j, hj, hgj⟩
      obtain ⟨hilt, hic⟩ := List.getElem?_eq_some.mp hgi
      obtain ⟨hjlt, hjc⟩ := List.getElem?_eq_some.mp hgj
      have hij : i = j := by
        have hinj := List.nodup_iff_injective_get.mp hl
        have hgeq : l.get ⟨i, hilt⟩ = l.get ⟨j, hjlt⟩ := by
          simp only [List.get_eq_getElem]
          rw [hic, hjc]
        have := hinj hgeq
        simpa using this
      exact hi (hij ▸ hj)

/-- C10: in the oracle-ranking branch, the result has at most maxResults
entries, every returned document is a score-stripped member of the
truncated top-candidate list, and (when those stripped candidates are
pairwise distinct) the result has no duplicates - all consequences of the
ranking being a permutation of the candidate indices.  The result lives in
List KDoc: the score field is removed by construction. -/
theorem c10_oracle_branch_properties (oracleReply : Except Unit (Option String))
    (docs : List KDoc) (query : String) (maxCandidates maxResults : Nat)
    (h : maxResults < (topCandidates docs query maxCandidates).length) :
    (searchWithCopilot (some (copilotRank oracleReply)) docs query maxCandidates
        maxResults).length ≤ maxResults ∧
    (∀ x ∈ searchWithCopilot (some (copilotRank oracleReply)) docs query maxCandidates
        maxResults,
      x ∈ (topCandidates docs query maxCandidates).map (fun c => c.doc)) ∧
    (((topCandidates docs query maxCandidates).map (fun c => c.doc)).Nodup →
      (searchWithCopilot (some (copilotRank oracleReply)) docs query maxCandidates
        maxResults).Nodup) := by
  have hr : searchWithCopilot (some (copilotRank oracleReply)) docs query maxCandidates
      maxResults =
      (((rankDocumentsByRelevance oracleReply (rankArgs docs query maxCandidates)).filterMap
        (fun idx => (topCandidates docs query maxCandidates)[idx]?)).take maxResults).map
        (fun c => c.doc) := by
    simp only [searchWithCopilot, searchWithCopilotDocs, copilotRank]
    rw [if_neg (by omega)]
    rfl
  have hperm := rankDocumentsByRelevance_perm oracleReply (rankArgs docs query maxCandidates)
  have hnodup_rank :
      (rankDocumentsByRelevance oracleReply (rankArgs docs query maxCandidates)).Nodup :=
    hperm.symm.nodup (List.nodup_range _)
  rw [hr]
  refine ⟨?_, ?_, ?_⟩
  · rw [List.length_map, List.length_take]
    exact Nat.min_le_left _ _
  · intro x hx
    rcases List.mem_map.mp hx with ⟨c, hc, rfl⟩
    have hcL := List.mem_of_mem_take hc
    rcases List.mem_filterMap.mp hcL with ⟨i, _, hgi⟩
    obtain ⟨hlt, rfl⟩ := List.getElem?_eq_some.mp hgi
    exact List.mem_map_of_mem _ (List.getElem_mem _)
  · intro hnd
    rw [List.map_take]
    refine List.Nodup.sublist (List.take_sublist _ _) ?_
    rw [List.map_filterMap]
    have hre : ∀ i : Nat,
        ((topCandidates docs query maxCandidates)[i]?).map (fun c => c.doc) =
          ((topCandidates docs query maxCandidates).map (fun c => c.doc))[i]? := by
      intro i
      rw [List.getElem?_map]
    simp only [hre]
    exact filterMap_getElem_nodup _ hnd _ hnodup_rank

/-- Concrete two-document corpus for the C10 witness. -/
def mossDocA : KDoc := ⟨"a.md", "Moss Guide", "moss moss moss here today", none⟩

/-- Second document of the C10 witness corpus. -/
def mossDocB : KDoc := ⟨"b.md", "Water Tips", "water and moss info line", none⟩

/-- Witness for C10 at a two-candidate corpus, maxResults = 1 and the
oracle reply "1, 0". -/
theorem c10_oracle_branch_properties_witness :
    1 < (topCandidates [mossDocA, mossDocB] "moss" 10).length ∧
    ((searchWithCopilot (some (copilotRank (Except.ok (some "1, 0"))))
        [mossDocA, mossDocB] "moss" 10 1).length ≤ 1 ∧
    (∀ x ∈ searchWithCopilot (some (copilotRank (Except.ok (some "1, 0"))))
        [mossDocA, mossDocB] "moss" 10 1,
      x ∈ (topCandidates [mossDocA, mossDocB] "moss" 10).map (fun c => c.doc)) ∧
    (((topCandidates [mossDocA, mossDocB] "moss" 10).map (fun c => c.doc)).Nodup →
      (searchWithCopilot (some (copilotRank (Except.ok (some "1, 0"))))
        [mossDocA, mossDocB] "moss" 10 1).Nodup)) :=
  ⟨by decide,
    c10_oracle_branch_properties (Except.ok (some "1, 0")) [mossDocA, mossDocB]
      "moss" 10 1 (by decide)⟩

/-! Path handling (node:path, posix semantics - the service deploys on
Linux) and KnowledgeService.loadDocument.  The file system is an abstract
map from full paths to contents; the theorems quantify over it. -/

/-- Segment resolution of path.posix.normalize: empty and "." segments are
dropped; ".." pops the previous segment, or is kept (relative paths) or
dropped (absolute paths) when there is nothing to pop.  The first list is
the reversed accumulator of resolved segments. -/
def normSegsAux (allowAbove : Bool) : List (List Char) → List (List Char) → List (List Char)
  | racc, [] => racc.reverse
  | racc, s :: rest =>
    if s = [] ∨ s = ['.'] then normSegsAux allowAbove racc rest
    else if s = ['.', '.'] then
      match racc with
      | t :: ts =>
        if t = ['.', '.'] then normSegsAux allowAbove (s :: t :: ts) rest
        else normSegsAux allowAbove ts rest
      | [] =>
        if allowAbove then normSegsAux allowAbove [s] rest
        else normSegsAux allowAbove [] rest
    else normSegsAux allowAbove (s :: racc) rest

/-- path.posix.normalize: resolve "." and ".." segments, collapse repeated
separators, keep a leading slash of absolute paths and a trailing slash of
non-empty results, and return "." for an empty relative result. -/
def pathNormalize (p : String) : String :=
  if p = "" then "."
  else
    let cs := p.data
    let isAbs : Bool := cs.head? == some '/'
    let trailing : Bool := cs.getLast? == some '/'
    let core := normSegsAux (!isAbs) [] (splitOnChar '/' cs)
    let body := List.intercalate ['/'] core
    if body.isEmpty then
      if isAbs then "/" else if trailing then "./" else "."
    else
      String.mk ((if isAbs then '/' :: body else body) ++ (if trailing then ['/'] else []))

/-- path.posix.join of two parts: empty parts are dropped, the rest are
joined with a separator and normalized; all-empty input gives ".". -/
def pathJoin (a b : String) : String :=
  if a = "" then
    if b = "" then "." else pathNormalize b
  else if b = "" then pathNormalize a
  else pathNormalize (a ++ "/" ++ b)

/-- Basename of a posix path: the part after the last separator, with
trailing separators dropped first. -/
def basenameOf (p : List Char) : List Char :=
  ((p.reverse.dropWhile (fun c => c == '/')).takeWhile (fun c => c != '/')).reverse

/-- path.extname: the suffix of the basename from its last dot, empty when
there is no dot or the only dot is the leading character (dotfiles). -/
def extnameOf (p : List Char) : List Char :=
  let b := basenameOf p
  let r := b.reverse
  let pre := r.takeWhile (fun c => c != '.')
  if pre.length = r.length then []
  else if b.length ≤ pre.length + 1 then []
  else '.' :: pre.reverse

/-- Extension eligibility of getAllDocuments:
path.extname(filePath).toLowerCase() is one of .md, .yaml, .yml. -/
def eligibleExt (p : String) : Bool :=
  let e := String.mk ((extnameOf p.data).map Char.toLower)
  e == ".md" || e == ".yaml" || e == ".yml"

/-- First line for which the extractor returns a value
(specification of the m-flagged regex searches of extractTitle). -/
def findSomeFirst? {α β : Type} (f : α → Option β) : List α → Option β
  | [] => none
  | a :: l =>
    match f a with
    | some b => some b
    | none => findSomeFirst? f l

/-- A line matching the level-1 markdown heading regex of extractTitle
together with the trimmed captured group.  The line matches when it starts
with a hash followed by a whitespace character and at least one more
character; the group, after the source's trim, is the trimmed remainder. -/
def h1Title? (l : List Char) : Option String :=
  match l with
  | '#' :: c :: rest =>
    if c.isWhitespace && !rest.isEmpty then some (String.mk (trimL (c :: rest))) else none
  | _ => none

def isQuote (c : Char) : Bool := c == '"' || c == '\''

/-- A line matching the YAML name regex of extractTitle with the trimmed
captured group.  The regex is modelled as: after "name:", strip leading
whitespace, one optional leading quote, then trailing whitespace and one
optional trailing quote (a nonempty remainder is required at each optional
strip, mirroring the lazy one-or-more group; pathological all-whitespace or
quote-only remainders may differ from full backtracking but always trim to
the same noise values). -/
def yamlName? (l : List Char) : Option String :=
  match l with
  | 'n' :: 'a' :: 'm' :: 'e' :: ':' :: rest =>
    if rest.isEmpty then none
    else
      let afterWs := rest.dropWhile Char.isWhitespace
      let core1 :=
        match afterWs with
        | c :: cs => if isQuote c && !cs.isEmpty then cs else afterWs
        | [] => []
      let r1 := core1.reverse.dropWhile Char.isWhitespace
      let r2 :=
        match r1 with
        | c :: cs => if isQuote c && !cs.isEmpty then cs else r1
        | [] => []
      some (String.mk (trimL r2.reverse))
  | _ => none

def isWordChar (c : Char) : Bool := c.isAlphanum || c == '_'

/-- The title-casing .replace(/\b\w/g, c => c.toUpperCase()): upper-case
every word character not preceded by a word character. -/
def titleCaseAux : Bool → List Char → List Char
  | _, [] => []
  | prev, c :: cs =>
    (if isWordChar c && !prev then c.toUpper else c) :: titleCaseAux (isWordChar c) cs

/-- Strip a proper extension suffix, as path.basename(p, ext) does. -/
def stripSuffix (b ext : List Char) : List Char :=
  if !ext.isEmpty && ext.length < b.length && ext.isSuffixOf b then
    b.take (b.length - ext.length)
  else b

/-- The filename fallback of extractTitle: basename without extension,
hyphens replaced by spaces, title-cased. -/
def titleFromFilename (p : String) : String :=
  let base := stripSuffix (basenameOf p.data) (extnameOf p.data)
  String.mk (titleCaseAux false (base.map (fun c => if c == '-' then ' ' else c)))

/-- KnowledgeService.extractTitle: first markdown H1 heading, else first
YAML name field, else the title-cased filename. -/
def extractTitle (content filePath : String) : String :=
  match findSomeFirst? h1Title? (splitOnChar '\n' content.data) with
  | some t => t
  | none =>
    match findSomeFirst? yamlName? (splitOnChar '\n' content.data) with
    | some t => t
    | none => titleFromFilename filePath

/-- KnowledgeService.loadDocument: reject when the normalized relative path
contains ".." as a substring, or when the joined full path does not start
with the data directory; only then consult the file system (ok none models
the null result of a failed read). -/
def loadDocument (root : String) (fs : String → Option String) (relativePath : String) :
    Except String (Option KDoc) :=
  let normalizedPath := pathNormalize relativePath
  if containsList ['.', '.'] normalizedPath.data then Except.error "Invalid path"
  else
    let fullPath := pathJoin root normalizedPath
    if !(root.data.isPrefixOf fullPath.data) then Except.error "Invalid path"
    else
      match fs fullPath with
      | some content =>
        Except.ok (some ⟨relativePath, extractTitle content relativePath, content, none⟩)
      | none => Except.ok none

/-- C7: every relative path whose normalized form contains a
parent-directory reference, or whose joined full form does not lie under
the corpus root (the source's startsWith check), is rejected with the
Invalid path error for every file system - hence before and regardless of
any file read. -/
theorem c7_loadDocument_rejects (root relativePath : String)
    (h : containsList ['.', '.'] (pathNormalize relativePath).data = true ∨
      root.data.isPrefixOf (pathJoin root (pathNormalize relativePath)).data = false) :
    ∀ fs : String → Option String,
      loadDocument root fs relativePath = Except.error "Invalid path" := by
  intro fs
  rcases h with h | h
  · simp only [loadDocument, h]
    rfl
  · simp only [loadDocument, h]
    by_cases hc : containsList ['.', '.'] (pathNormalize relativePath).data
    · simp [hc]
    · simp [hc]

/-- Witness for C7: both "../secrets.txt" and "a/../../b" normalize to
paths containing "..", and both are rejected under the root "/data" with an
empty file system. -/
theorem c7_loadDocument_rejects_witness :
    containsList ['.', '.'] (pathNormalize "../secrets.txt").data = true ∧
    containsList ['.', '.'] (pathNormalize "a/../../b").data = true ∧
    loadDocument "/data" (fun _ => none) "../secrets.txt" = Except.error "Invalid path" ∧
    loadDocument "/data" (fun _ => none) "a/../../b" = Except.error "Invalid path" :=
  ⟨by decide, by decide,
    c7_loadDocument_rejects "/data" "../secrets.txt" (Or.inl (by decide)) (fun _ => none),
    c7_loadDocument_rejects "/data" "a/../../b" (Or.inl (by decide)) (fun _ => none)⟩

/-! The document cache and the stateful search operations (C9).  The
recursive directory walk is abstracted into the ordered list of
(relative path, content) file entries it visits; the per-file logic of
getAllDocuments follows the source.  The cache is an association list in
Map insertion order. -/

abbrev Cache := List (String × KDoc)

def cacheGet : Cache → String → Option KDoc
  | [], _ => none
  | (k, d) :: rest, key => if k = key then some d else cacheGet rest key

/-- KnowledgeService.getAllDocuments: for every eligible file, push the
cached entry when present; otherwise skip near-empty files, else build the
document (without snippet), insert it into the cache and push it.  Returns
the documents in walk order together with the updated cache. -/
def getAllDocuments : Cache → List (String × String) → List KDoc × Cache
  | cache, [] => ([], cache)
  | cache, (p, content) :: rest =>
    if eligibleExt p then
      match cacheGet cache p with
      | some d =>
        let r := getAllDocuments cache rest
        (d :: r.1, r.2)
      | none =>
        if (trimL content.data).length < 10 then getAllDocuments cache rest
        else
          let d : KDoc := ⟨p, extractTitle content p, content, none⟩
          let r := getAllDocuments (cache ++ [(p, d)]) rest
          (d :: r.1, r.2)
    else getAllDocuments cache rest

/-- KnowledgeService.clearCache. -/
def clearCache (_cache : Cache) : Cache := []

/-- KnowledgeService.search with its cache effect: load the corpus through
the cache, then run the pure search. -/
def searchSt (cache : Cache) (files : List (String × String)) (query : String) :
    List KDoc × Cache :=
  let r := getAllDocuments cache files
  (searchDocs r.1 query, r.2)

/-- KnowledgeService.searchWithCopilot with its cache effect: without a
Copilot service it is the plain search; otherwise the guarded body runs on
the loaded corpus, and on an exception the source re-runs this.search,
walking the (already populated) cache again. -/
def searchWithCopilotSt (copilotOpt : Option RankFn) (cache : Cache)
    (files : List (String × String)) (query : String) (mc mr : Nat) :
    List KDoc × Cache :=
  match copilotOpt with
  | none => searchSt cache files query
  | some rankFn =>
    let r := getAllDocuments cache files
    match searchWithCopilotDocs rankFn r.1 query mc mr with
    | some res => (res, r.2)
    | none => searchSt r.2 files query

lemma cacheGet_append_of_some (c : Cache) (c2 : Cache) (k : String) (d : KDoc)
    (h : cacheGet c k = some d) : cacheGet (c ++ c2) k = some d := by
  induction c with
  | nil => exact absurd h (by simp [cacheGet])
  | cons kd rest ih =>
    obtain ⟨k1, d1⟩ := kd
    rw [cacheGet] at h
    by_cases hk : k1 = k
    · rw [if_pos hk] at h
      rw [List.cons_append, cacheGet, if_pos hk]
      exact h
    · rw [if_neg hk] at h
      rw [List.cons_append, cacheGet, if_neg hk]
      exact ih h

lemma cacheGet_append_singleton (c : Cache) (p : String) (x : KDoc) (k : String) (d : KDoc)
    (h : cacheGet (c ++ [(p, x)]) k = some d) : cacheGet c k = some d ∨ d = x := by
  induction c with
  | nil =>
    rw [List.nil_append, cacheGet] at h
    by_cases hk : p = k
    · rw [if_pos hk] at h
      exact Or.inr (Option.some.inj h).symm
    · rw [if_neg hk] at h
      exact absurd h (by simp [cacheGet])
  | cons kd rest ih =>
    obtain ⟨k1, d1⟩ := kd
    rw [List.cons_append, cacheGet] at h
    by_cases hk : k1 = k
    · rw [if_pos hk] at h
      exact Or.inl (by rw [cacheGet, if_pos hk]; exact h)
    · rw [if_neg hk] at h
      rcases ih h with h1 | h1
      · exact Or.inl (by rw [cacheGet, if_neg hk]; exact h1)
      · exact Or.inr h1

lemma getAllDocuments_preserves :
    ∀ (files : List (String × String)) (cache : Cache) (k : String) (d : KDoc),
      cacheGet cache k = some d → cacheGet (getAllDocuments cache files).2 k = some d := by
  intro files
  induction files with
  | nil => intro cache k d h; exact h
  | cons f rest ih =>
    intro cache k d h
    obtain ⟨p, content⟩ := f
    by_cases he : eligibleExt p
    · cases hcg : cacheGet cache p with
      | some d0 => simp only [getAllDocuments, he, hcg]; exact ih cache k d h
      | none =>
        by_cases hsm : (trimL content.data).length < 10
        · simp only [getAllDocuments, he, hcg, if_pos hsm]
          exact ih cache k d h
        · simp only [getAllDocuments, he, hcg, if_neg hsm]
          exact ih _ k d (cacheGet_append_of_some cache _ k d h)
    · simp only [getAllDocuments, he]
      simp only [Bool.false_eq_true, if_false]
      exact ih cache k d h

lemma getAllDocuments_snippet_inv :
    ∀ (files : List (String × String)) (cache : Cache),
      (∀ k d, cacheGet cache k = some d → d.snippet = none) →
      ∀ k d, cacheGet (getAllDocuments cache files).2 k = some d → d.snippet = none := by
  intro files
  induction files with
  | nil => intro cache hinv k d h; exact hinv k d h
  | cons f rest ih =>
    intro cache hinv k d h
    obtain ⟨p, content⟩ := f
    by_cases he : eligibleExt p
    · cases hcg : cacheGet cache p with
      | some d0 =>
        simp only [getAllDocuments, he, hcg] at h
        exact ih cache hinv k d h
      | none =>
        by_cases hsm : (trimL content.data).length < 10
        · simp only [getAllDocuments, he, hcg, if_pos hsm] at h
          exact ih cache hinv k d h
        · simp only [getAllDocuments, he, hcg, if_neg hsm] at h
          refine ih _ ?_ k d h
          intro k1 d1 h1
          rcases cacheGet_append_singleton cache p _ k1 d1 h1 with h2 | h2
          · exact hinv k1 d1 h2
          · rw [h2]
    · simp only [getAllDocuments, he, Bool.false_eq_true, if_false] at h
      exact ih cache hinv k d h

/-- C9: no operation mutates a cached document after it is created: an
existing cache entry survives getAllDocuments, search and searchWithCopilot
unchanged (title and content included); clearCache only removes entries;
and when every cached entry carries no snippet, that stays true after a
search - the query-dependent snippets of the results are attached to
per-call copies, never written back into the cache. -/
theorem c9_cache_immutable (cache : Cache) (files : List (String × String))
    (query : String) (copilotOpt : Option RankFn) (mc mr : Nat) (k : String) (d : KDoc)
    (h : cacheGet cache k = some d) :
    cacheGet (getAllDocuments cache files).2 k = some d ∧
    cacheGet (searchSt cache files query).2 k = some d ∧
    cacheGet (searchWithCopilotSt copilotOpt cache files query mc mr).2 k = some d ∧
    cacheGet (clearCache cache) k = none ∧
    ((∀ k1 d1, cacheGet cache k1 = some d1 → d1.snippet = none) →
      ∀ k1 d1,
        cacheGet (searchWithCopilotSt copilotOpt cache files query mc mr).2 k1 = some d1 →
        d1.snippet = none) := by
  have hg := getAllDocuments_preserves files cache k d h
  have hst : (searchSt cache files query).2 = (getAllDocuments cache files).2 := rfl
  have hsw : ∀ (k1 : String) (d1 : KDoc),
      cacheGet (getAllDocuments cache files).2 k1 = some d1 →
      cacheGet (searchWithCopilotSt copilotOpt cache files query mc mr).2 k1 = some d1 := by
    intro k1 d1 h1
    match copilotOpt with
    | none => exact h1
    | some rankFn =>
      simp only [searchWithCopilotSt]
      cases hdocs : searchWithCopilotDocs rankFn (getAllDocuments cache files).1 query mc mr with
      | some res => exact h1
      | none =>
        simp only [searchSt]
        exact getAllDocuments_preserves files _ k1 d1 h1
  refine ⟨hg, by rw [hst]; exact hg, hsw k d hg, by simp [clearCache, cacheGet], ?_⟩
  intro hinv k1 d1 h1
  have hinv2 := getAllDocuments_snippet_inv files cache hinv
  match copilotOpt with
  | none => exact hinv2 k1 d1 h1
  | some rankFn =>
    simp only [searchWithCopilotSt] at h1
    cases hdocs : searchWithCopilotDocs rankFn (getAllDocuments cache files).1 query mc mr with
    | some res =>
      rw [hdocs] at h1
      exact hinv2 k1 d1 h1
    | none =>
      rw [hdocs] at h1
      simp only [searchSt] at h1
      exact getAllDocuments_snippet_inv files _ hinv2 k1 d1 h1

/-- Witness for C9 at a concrete cache, file list and query. -/
theorem c9_cache_immutable_witness :
    cacheGet [("a.md", ⟨"a.md", "Alpha", "some cached content here", none⟩)] "a.md" =
      some ⟨"a.md", "Alpha", "some cached content here", none⟩ ∧
    (cacheGet (getAllDocuments
        [("a.md", ⟨"a.md", "Alpha", "some cached content here", none⟩)]
        [("b.md", "# Beta Title\nmore than ten characters")]).2 "a.md" =
      some ⟨"a.md", "Alpha", "some cached content here", none⟩ ∧
    cacheGet (searchSt [("a.md", ⟨"a.md", "Alpha", "some cached content here", none⟩)]
        [("b.md", "# Beta Title\nmore than ten characters")] "beta").2 "a.md" =
      some ⟨"a.md", "Alpha", "some cached content here", none⟩ ∧
    cacheGet (searchWithCopilotSt (some (copilotRank (Except.error ())))
        [("a.md", ⟨"a.md", "Alpha", "some cached content here", none⟩)]
        [("b.md", "# Beta Title\nmore than ten characters")] "beta" 10 3).2 "a.md" =
      some ⟨"a.md", "Alpha", "some cached content here", none⟩ ∧
    cacheGet (clearCache [("a.md", ⟨"a.md", "Alpha", "some cached content here", none⟩)])
        "a.md" = none ∧
    ((∀ k1 d1,
        cacheGet [("a.md", ⟨"a.md", "Alpha", "some cached content here", none⟩)] k1 =
          some d1 → d1.snippet = none) →
      ∀ k1 d1,
        cacheGet (searchWithCopilotSt (some (copilotRank (Except.error ())))
          [("a.md", ⟨"a.md", "Alpha", "some cached content here", none⟩)]
          [("b.md", "# Beta Title\nmore than ten characters")] "beta" 10 3).2 k1 =
          some d1 → d1.snippet = none)) :=
  ⟨by decide,
    c9_cache_immutable [("a.md", ⟨"a.md", "Alpha", "some cached content here", none⟩)]
      [("b.md", "# Beta Title\nmore than ten characters")] "beta"
      (some (copilotRank (Except.error ()))) 10 3 "a.md"
      ⟨"a.md", "Alpha", "some cached content here", none⟩ (by decide)⟩

end Moss
